import Mathlib

attribute [local semireducible] Rat.add Rat.mul Rat.inv Rat.sub

/-!
Verification development for the multi-column A4 text layout engine
(`src/app/page.tsx`): tokenizer, metrics resolver, flow engine and page
assembler, shallowly embedded over `ℚ` with an abstract text-measurement
function.  Strings are modelled as `List Char`; JS numbers as `ℚ`.
-/

namespace Layout

/-- A rendered column: `{ lines: string[] }` in the source. -/
structure LayoutColumn where
  lines : List (List Char)
  deriving Repr, DecidableEq

/-- A page: `{ columns: { lines: string[] }[] }` in the source. -/
structure LayoutPage where
  columns : List LayoutColumn
  deriving Repr, DecidableEq

/-- Token type tags of the tokenizer (`'newline' | 'space' | 'word'`). -/
inductive TokenType where
  | newline
  | space
  | word
  deriving Repr, DecidableEq

/-- A token `{ type, value }` produced by `tokenize`. -/
structure Token where
  type : TokenType
  value : List Char
  deriving Repr, DecidableEq

/-- Source function `createEmptyPage(columns)`. -/
def createEmptyPage (columns : Nat) : LayoutPage :=
  ⟨List.replicate columns ⟨[]⟩⟩

/-- The character class matched by JavaScript regex `\s` (ECMAScript
WhiteSpace plus LineTerminator). -/
def jsWhitespace (c : Char) : Bool :=
  let n := c.toNat
  n = 9 || n = 10 || n = 11 || n = 12 || n = 13 || n = 32 || n = 160 ||
  n = 0x1680 || (0x2000 ≤ n && n ≤ 0x200a) || n = 0x2028 || n = 0x2029 ||
  n = 0x202f || n = 0x205f || n = 0x3000 || n = 0xfeff

/-- Model of `text.replace(/\r\n/g, '\n')`: the global, left-to-right, non-overlapping
replacement of every CRLF pair by a single LF. -/
def normalizeNewlines : List Char → List Char
  | [] => []
  | '\r' :: '\n' :: rest => '\n' :: normalizeNewlines rest
  | c :: rest => c :: normalizeNewlines rest

/-- One scanner step of the regex `(\n|\s+|[^\s]+)` loop of `tokenize`,
with an explicit fuel argument; the loop consumes at least one character
per match, so fuel `= length` is always enough. -/
def scanTokensF : Nat → List Char → List Token
  | 0, _ => []
  | _, [] => []
  | fuel + 1, c :: rest =>
    if c = '\n' then
      -- first alternative `\n`: a single newline token
      ⟨.newline, ['\n']⟩ :: scanTokensF fuel rest
    else if jsWhitespace c then
      -- second alternative `\s+`: the maximal whitespace run, re-emitted
      -- one character at a time as newline/space tokens
      (((c :: rest).takeWhile jsWhitespace).map fun ch =>
          if ch = '\n' then ⟨.newline, ['\n']⟩ else ⟨.space, [ch]⟩)
        ++ scanTokensF fuel ((c :: rest).dropWhile jsWhitespace)
    else
      -- third alternative `[^\s]+`: the maximal non-whitespace run as a word
      ⟨.word, (c :: rest).takeWhile (fun ch => !jsWhitespace ch)⟩
        :: scanTokensF fuel ((c :: rest).dropWhile (fun ch => !jsWhitespace ch))

/-- Source function `tokenize`: normalize CRLF, then scan. -/
def tokenize (text : List Char) : List Token :=
  scanTokensF (normalizeNewlines text).length (normalizeNewlines text)

/-- Concatenation of the `value` fields of a token list, in order. -/
def concatValues (ts : List Token) : List Char :=
  ts.foldr (fun t acc => t.value ++ acc) []

/-- The per-pass context captured by the closures inside `layoutText`:
the measurement function `ctx.measureText(...).width` (abstracted, per the
spec's Text Measurement Service), `metrics.columnWidthsPx`, the clamped
column count, and the vertical geometry. -/
structure FlowCtx where
  measure : List Char → ℚ
  columnWidths : List ℚ
  columnCount : Nat
  lineHeightPx : ℚ
  columnHeightPx : ℚ

/-- The mutable cursor state of one `layoutText` pass. -/
structure FlowState where
  pages : List LayoutPage
  currentPage : List LayoutColumn
  currentColumnLines : List (List Char)
  cursorY : ℚ
  currentLine : List Char
  currentLineWidth : ℚ
  deriving DecidableEq

/-- The initial cursor state of `layoutText`. -/
def flowInit : FlowState := ⟨[], [], [], 0, [], 0⟩

/-- Source closure `getColumnWidth()`: the width of the column currently
being filled (index = number of columns already closed on the current
page), falling back to the last configured width when the index runs past
the configured list.  (The source's final `?? columnWidths[0]` only fires
on an empty width list, which `layoutText` rules out before the flow
starts; we supply `0` as the default there.) -/
def getColumnWidth (K : FlowCtx) (s : FlowState) : ℚ :=
  let idx := s.currentPage.length
  if h : idx < K.columnWidths.length then K.columnWidths.get ⟨idx, h⟩
  else K.columnWidths.getLastD 0

/-- Source closure `finishColumn()`: close the current column; if the page
has reached `columnCount` columns, close the page too. -/
def finishColumn (K : FlowCtx) (s : FlowState) : FlowState :=
  let page := s.currentPage ++ [⟨s.currentColumnLines⟩]
  if page.length = K.columnCount then
    { s with pages := s.pages ++ [⟨page⟩], currentPage := [],
             currentColumnLines := [], cursorY := 0 }
  else
    { s with currentPage := page, currentColumnLines := [], cursorY := 0 }

/-- Source closure `ensureColumnSpaceForNextLine()`. -/
def ensureColumnSpaceForNextLine (K : FlowCtx) (s : FlowState) : FlowState :=
  if s.cursorY + K.lineHeightPx ≤ K.columnHeightPx + 1/10 then s
  else finishColumn K s

/-- Model of `rawLine.replace(/\s+$/u, '')`: strip the trailing whitespace run. -/
def trimTrailing (l : List Char) : List Char :=
  (l.reverse.dropWhile jsWhitespace).reverse

/-- The non-breaking-space placeholder used for committed empty lines. -/
def nbsp : Char := '\u00A0'

/-- Source closure `commitLine(rawLine)`. -/
def commitLine (K : FlowCtx) (rawLine : List Char) (s : FlowState) : FlowState :=
  let trimmed := trimTrailing rawLine
  let s1 := ensureColumnSpaceForNextLine K s
  { s1 with
    currentColumnLines :=
      s1.currentColumnLines ++ [if trimmed = [] then [nbsp] else trimmed],
    cursorY := s1.cursorY + K.lineHeightPx,
    currentLine := [], currentLineWidth := 0 }

/-- The binary-search loop inside `splitLongWord`, with `low`, `high`,
`best` as integers (JS numbers) and an explicit fuel; each iteration
shrinks `high + 1 - low` by at least one, so the wrapper's fuel
`(high + 1 - low).toNat` always suffices. -/
def searchBestF (μ : List Char → ℚ) (W : ℚ) (word : List Char) :
    Nat → ℤ → ℤ → ℤ → ℤ
  | 0, _, _, best => best
  | fuel + 1, low, high, best =>
    if low ≤ high then
      let mid := (low + high) / 2
      if μ (word.take mid.toNat) ≤ W + 1/10 then
        searchBestF μ W word fuel (mid + 1) high mid
      else
        searchBestF μ W word fuel low (mid - 1) best
    else best

/-- The binary-search loop of `splitLongWord` (`while (low <= high) ...`). -/
def searchBest (μ : List Char → ℚ) (W : ℚ) (word : List Char)
    (low high best : ℤ) : ℤ :=
  searchBestF μ W word (high + 1 - low).toNat low high best

/-- The prefix length `splitLongWord` takes in one iteration: the result of
the binary search over `[1, remaining.length]`, forced to `1` when nothing
fits (`if (best === 0) best = 1`). -/
def chooseBest (μ : List Char → ℚ) (W : ℚ) (remaining : List Char) : ℤ :=
  let found := searchBest μ W remaining 1 (remaining.length : ℤ) 0
  if found = 0 then 1 else found

/-- The `while (remaining.length > 0)` loop of `splitLongWord`, with an
explicit fuel; every iteration consumes at least one character, so the
wrapper's fuel `word.length` always suffices. -/
def splitLongWordF (K : FlowCtx) : Nat → List Char → FlowState → FlowState
  | 0, _, s => s
  | _, [], s => s
  | fuel + 1, c :: cs, s =>
    let remaining := c :: cs
    let columnWidth := getColumnWidth K s
    let s1 := ensureColumnSpaceForNextLine K s
    let best := chooseBest K.measure columnWidth remaining
    if best = (remaining.length : ℤ) then
      { s1 with currentLine := remaining, currentLineWidth := K.measure remaining }
    else
      splitLongWordF K fuel (remaining.drop best.toNat)
        (commitLine K (remaining.take best.toNat) s1)

/-- Source closure `splitLongWord(word)`. -/
def splitLongWord (K : FlowCtx) (word : List Char) (s : FlowState) : FlowState :=
  splitLongWordF K word.length word s

/-- The body of the `for (const token of tokens)` loop of `layoutText`. -/
def processToken (K : FlowCtx) (t : Token) (s : FlowState) : FlowState :=
  match t.type with
  | .newline =>
    if s.currentLine ≠ [] then commitLine K s.currentLine s
    else commitLine K [] s
  | .space =>
    if s.currentLine = [] then s
    else
      let columnWidth := getColumnWidth K s
      let width := K.measure t.value
      if s.currentLineWidth + width ≤ columnWidth + 1/10 then
        { s with currentLine := s.currentLine ++ t.value,
                 currentLineWidth := s.currentLineWidth + width }
      else commitLine K s.currentLine s
  | .word =>
    let columnWidth := getColumnWidth K s
    let width := K.measure t.value
    let s1 :=
      if 0 < s.currentLineWidth ∧ columnWidth + 1/10 < s.currentLineWidth + width
      then commitLine K s.currentLine s else s
    if width ≤ columnWidth + 1/10 then
      let s2 := if s1.currentLine = [] then ensureColumnSpaceForNextLine K s1 else s1
      { s2 with currentLine := s2.currentLine ++ t.value,
                currentLineWidth := s2.currentLineWidth + width }
    else
      let s2 := if s1.currentLine ≠ [] then commitLine K s1.currentLine s1 else s1
      splitLongWord K t.value s2

/-- The end-of-stream assembly of `layoutText`: commit a pending line
buffer, flush the trailing column, pad the final page with empty columns
up to `columnCount`, and emit it. -/
def flushPages (K : FlowCtx) (s : FlowState) : List LayoutPage :=
  let s1 := if s.currentLine ≠ [] then commitLine K s.currentLine s else s
  if s1.currentColumnLines ≠ [] ∨ s1.currentPage ≠ [] then
    let cols := s1.currentPage ++ [⟨s1.currentColumnLines⟩]
    s1.pages ++ [⟨cols ++ List.replicate (K.columnCount - cols.length) ⟨[]⟩⟩]
  else s1.pages

/-- Source type `LayoutConfig`. -/
structure LayoutConfig where
  text : List Char
  columns : Nat
  fontFamily : List Char
  fontSize : ℚ
  lineSpacing : ℚ

/-- Source type `MarginsPx`. -/
structure MarginsPx where
  top : ℚ
  right : ℚ
  bottom : ℚ
  left : ℚ
  deriving DecidableEq

/-- Source type `LayoutMetrics`. -/
structure LayoutMetrics where
  pageWidthPx : ℚ
  pageHeightPx : ℚ
  marginsPx : MarginsPx
  columnWidthsPx : List ℚ
  columnOffsetsPx : List ℚ
  columnHeightPx : ℚ
  gapPx : ℚ
  fontSizePx : ℚ
  lineHeightPx : ℚ
  customScale : ℚ
  deriving DecidableEq

/-- Source function `layoutText(config, metrics)`.  Here `hasWindow` models
`typeof window !== 'undefined'`; `hasCtx` models
`canvas.getContext('2d')` returning non-null; `μ` models the canvas
measurement `ctx.measureText(value).width` for the configured font. -/
def layoutText (hasWindow hasCtx : Bool) (μ : List Char → ℚ)
    (config : LayoutConfig) (metrics : LayoutMetrics) : List LayoutPage :=
  if hasWindow = false then [createEmptyPage config.columns] else
  let columnWidths := metrics.columnWidthsPx
  let columnCount := max config.columns 1
  if columnWidths.length = 0 then [createEmptyPage columnCount] else
  if hasCtx = false then [createEmptyPage columnCount] else
  let K : FlowCtx := ⟨μ, columnWidths, columnCount,
    metrics.lineHeightPx, metrics.columnHeightPx⟩
  let tokens := tokenize config.text
  let final := flushPages K (tokens.foldl (fun s t => processToken K t s) flowInit)
  if final = [] then [createEmptyPage columnCount] else final

/-! ### Metrics resolver -/

/-- Source constant `PAGE_WIDTH_MM`. -/
def PAGE_WIDTH_MM : ℚ := 210

/-- Source constant `PAGE_HEIGHT_MM`. -/
def PAGE_HEIGHT_MM : ℚ := 297

/-- Source helper `mmToPx = (mm) => (mm * 96) / 25.4`. -/
def mmToPx (mm : ℚ) : ℚ := mm * 96 / (254/10)

/-- Source helper `ptToPx = (pt) => (pt * 96) / 72`. -/
def ptToPx (pt : ℚ) : ℚ := pt * 96 / 72

/-- Source type `ColumnMode`. -/
inductive ColumnMode where
  | equal
  | custom
  deriving DecidableEq

/-- Source type `Margins` (in millimeters). -/
structure Margins where
  top : ℚ
  right : ℚ
  bottom : ℚ
  left : ℚ
  deriving DecidableEq

/-- The `forEach` loop of `computeMetrics` building `columnOffsetsPx`:
each pushed offset is the running sum of the previous widths plus one gap
per previous column.  (The source skips the gap only after the final
width, which changes the running accumulator but never a pushed offset.) -/
def computeOffsets (gapPx : ℚ) : List ℚ → ℚ → List ℚ
  | [], _ => []
  | w :: rest, off => off :: computeOffsets gapPx rest (off + w + gapPx)

/-- Source function `computeMetrics`. -/
def computeMetrics (columns : Nat) (mode : ColumnMode) (columnWidthsMm : List ℚ)
    (gapMm : ℚ) (margins : Margins) (fontSize lineSpacing : ℚ) : LayoutMetrics :=
  let pageWidthPx := mmToPx PAGE_WIDTH_MM
  let pageHeightPx := mmToPx PAGE_HEIGHT_MM
  let marginsPx : MarginsPx :=
    ⟨mmToPx margins.top, mmToPx margins.right, mmToPx margins.bottom, mmToPx margins.left⟩
  let contentWidthPx := max (pageWidthPx - marginsPx.left - marginsPx.right) 1
  let gapPx := mmToPx gapMm
  let totalGapPx := gapPx * ((columns - 1 : Nat) : ℚ)
  let availableWidthPx := max (contentWidthPx - totalGapPx) 1
  let availableWidthMm :=
    max (PAGE_WIDTH_MM - margins.left - margins.right
          - gapMm * ((columns - 1 : Nat) : ℚ)) 1
  let columnCount := max columns 1
  let widthsAndScale : List ℚ × ℚ :=
    match mode with
    | ColumnMode.equal =>
      (List.replicate columnCount (availableWidthPx / (columnCount : ℚ)), 1)
    | ColumnMode.custom =>
      let requested := (columnWidthsMm.take columnCount).map fun v => max v 0
      let sum := requested.foldl (fun acc v => acc + v) 0
      if sum ≤ 0 then
        (List.replicate columnCount (availableWidthPx / (columnCount : ℚ)), 1)
      else
        let scale := availableWidthMm / sum
        (requested.map fun v => mmToPx (v * scale), scale)
  let columnWidthsPx := widthsAndScale.1
  let scale := widthsAndScale.2
  let columnOffsetsPx := computeOffsets gapPx columnWidthsPx 0
  let columnHeightPx := max (pageHeightPx - marginsPx.top - marginsPx.bottom) 16
  let fontSizePx := ptToPx fontSize
  let lineHeightPx := fontSizePx * lineSpacing
  ⟨pageWidthPx, pageHeightPx, marginsPx, columnWidthsPx, columnOffsetsPx,
   columnHeightPx, gapPx, fontSizePx, lineHeightPx, scale⟩

/-- The clamped per-column request list of custom mode:
`columnWidthsMm.slice(0, columnCount).map(v => Math.max(v, 0))`. -/
def requestedWidths (columnWidthsMm : List ℚ) (columnCount : Nat) : List ℚ :=
  (columnWidthsMm.take columnCount).map fun v => max v 0

/-- The `availableWidthMm` intermediate of `computeMetrics`. -/
def availableWidthMmOf (columns : Nat) (gapMm : ℚ) (margins : Margins) : ℚ :=
  max (PAGE_WIDTH_MM - margins.left - margins.right
        - gapMm * ((columns - 1 : Nat) : ℚ)) 1

/-- The `availableWidthPx` intermediate of `computeMetrics`. -/
def availableWidthPxOf (columns : Nat) (gapMm : ℚ) (margins : Margins) : ℚ :=
  max (max (mmToPx PAGE_WIDTH_MM - mmToPx margins.left - mmToPx margins.right) 1
        - mmToPx gapMm * ((columns - 1 : Nat) : ℚ)) 1


/-! ### Predicates and auxiliary definitions used by the theorems -/

/-- A column respects the vertical budget:
`lines.length * lineHeight ≤ columnHeight + 0.1`. -/
def colOk (K : FlowCtx) (c : LayoutColumn) : Prop :=
  (c.lines.length : ℚ) * K.lineHeightPx ≤ K.columnHeightPx + 1/10

/-- Every column of the page respects the vertical budget. -/
def pageOk (K : FlowCtx) (p : LayoutPage) : Prop :=
  ∀ c ∈ p.columns, colOk K c

/-- The inductive invariant of the flow pass: all emitted and in-progress
columns respect the budget, and the cursor tracks the current column's
line count. -/
def heightInv (K : FlowCtx) (s : FlowState) : Prop :=
  (∀ p ∈ s.pages, pageOk K p) ∧ (∀ c ∈ s.currentPage, colOk K c) ∧
  s.cursorY = (s.currentColumnLines.length : ℚ) * K.lineHeightPx ∧
  s.cursorY ≤ K.columnHeightPx + 1/10

/-- The geometry under which the no-overflow invariant is provable: a
non-negative line height that itself fits the column budget. -/
def goodHeights (K : FlowCtx) : Prop :=
  0 ≤ K.lineHeightPx ∧ K.lineHeightPx ≤ K.columnHeightPx + 1/10

/-- The page-shape invariant of the flow pass: every emitted page has
exactly `columnCount` columns and the page being built has strictly
fewer. -/
def pagesShapeInv (K : FlowCtx) (s : FlowState) : Prop :=
  (∀ p ∈ s.pages, p.columns.length = K.columnCount) ∧
  s.currentPage.length < K.columnCount

/-- All lines of a column list, in commit order. -/
def linesOfCols (cols : List LayoutColumn) : List (List Char) :=
  cols.foldr (fun c acc => c.lines ++ acc) []

/-- All lines of a page list, in commit order. -/
def pagesLines (ps : List LayoutPage) : List (List Char) :=
  ps.foldr (fun p acc => linesOfCols p.columns ++ acc) []

/-- Every line committed so far, in commit order: lines of closed pages,
then of closed columns of the current page, then of the current column.
`commitLine` appends exactly one entry at the end of this sequence. -/
def committedLines (s : FlowState) : List (List Char) :=
  pagesLines s.pages ++ linesOfCols s.currentPage ++ s.currentColumnLines

/-- The spec's reading of `splitLongWord` for C7: the column width used by
the binary-search comparisons is re-resolved at the moment of the
comparison, i.e. after `ensureColumnSpaceForNextLine` may have moved the
flow to a new column — unlike the source, which fetches it before. -/
def splitLongWordSpecF (K : FlowCtx) : Nat → List Char → FlowState → FlowState
  | 0, _, s => s
  | _, [], s => s
  | fuel + 1, c :: cs, s =>
    let remaining := c :: cs
    let s1 := ensureColumnSpaceForNextLine K s
    let columnWidth := getColumnWidth K s1
    let best := chooseBest K.measure columnWidth remaining
    if best = (remaining.length : ℤ) then
      { s1 with currentLine := remaining, currentLineWidth := K.measure remaining }
    else
      splitLongWordSpecF K fuel (remaining.drop best.toNat)
        (commitLine K (remaining.take best.toNat) s1)

/-- Wrapper for `splitLongWordSpecF` with adequate fuel. -/
def splitLongWordSpec (K : FlowCtx) (word : List Char) (s : FlowState) : FlowState :=
  splitLongWordSpecF K word.length word s

/-- The spec's reading of word-token processing for C7: the
does-the-word-fit comparison re-resolves the column width after the
overflow commit may have moved the flow to a new column. -/
def processTokenSpec (K : FlowCtx) (t : Token) (s : FlowState) : FlowState :=
  match t.type with
  | .newline =>
    if s.currentLine ≠ [] then commitLine K s.currentLine s
    else commitLine K [] s
  | .space =>
    if s.currentLine = [] then s
    else
      let columnWidth := getColumnWidth K s
      let width := K.measure t.value
      if s.currentLineWidth + width ≤ columnWidth + 1/10 then
        { s with currentLine := s.currentLine ++ t.value,
                 currentLineWidth := s.currentLineWidth + width }
      else commitLine K s.currentLine s
  | .word =>
    let columnWidth := getColumnWidth K s
    let width := K.measure t.value
    let s1 :=
      if 0 < s.currentLineWidth ∧ columnWidth + 1/10 < s.currentLineWidth + width
      then commitLine K s.currentLine s else s
    let columnWidth2 := getColumnWidth K s1
    if width ≤ columnWidth2 + 1/10 then
      let s2 := if s1.currentLine = [] then ensureColumnSpaceForNextLine K s1 else s1
      { s2 with currentLine := s2.currentLine ++ t.value,
                currentLineWidth := s2.currentLineWidth + width }
    else
      let s2 := if s1.currentLine ≠ [] then commitLine K s1.currentLine s1 else s1
      splitLongWordSpec K t.value s2

/-- Variant of `layoutText` with the spec's per-comparison width resolution. -/
def layoutTextSpec (hasWindow hasCtx : Bool) (μ : List Char → ℚ)
    (config : LayoutConfig) (metrics : LayoutMetrics) : List LayoutPage :=
  if hasWindow = false then [createEmptyPage config.columns] else
  let columnWidths := metrics.columnWidthsPx
  let columnCount := max config.columns 1
  if columnWidths.length = 0 then [createEmptyPage columnCount] else
  if hasCtx = false then [createEmptyPage columnCount] else
  let K : FlowCtx := ⟨μ, columnWidths, columnCount,
    metrics.lineHeightPx, metrics.columnHeightPx⟩
  let tokens := tokenize config.text
  let final := flushPages K (tokens.foldl (fun s t => processTokenSpec K t s) flowInit)
  if final = [] then [createEmptyPage columnCount] else final

end Layout

namespace Layout

/-- The input on which per-token and per-comparison width resolution
diverge: three columns of widths `[10, 1, 1]`, a column height of two
lines, and the text `"\n\naaaaaaaa bbbbb"` under a one-unit-per-character
measure. -/
def cfgStaleWidth : LayoutConfig :=
  ⟨['\n', '\n', 'a', 'a', 'a', 'a', 'a', 'a', 'a', 'a', ' ', 'b', 'b', 'b', 'b', 'b'],
    3, [], 12, 1⟩

/-- Metrics for `cfgStaleWidth` (unequal widths, two-line columns). -/
def mStaleWidth : LayoutMetrics :=
  ⟨794, 1123, ⟨38, 38, 38, 38⟩, [10, 1, 1], [0, 12, 14], 2, 2, 16, 1, 1⟩

end Layout



namespace Layout

/-! ### Tokenizer round-trip (C2) -/

theorem concatValues_nil : concatValues [] = [] := rfl

theorem concatValues_cons (t : Token) (ts : List Token) :
    concatValues (t :: ts) = t.value ++ concatValues ts := rfl

theorem concatValues_append (a b : List Token) :
    concatValues (a ++ b) = concatValues a ++ concatValues b := by
  induction a with
  | nil => rfl
  | cons t ts ih =>
    simp [concatValues_cons, ih, List.append_assoc]

theorem concatValues_wsRun (run : List Char) :
    concatValues (run.map fun ch =>
      if ch = '\n' then (⟨.newline, ['\n']⟩ : Token) else ⟨.space, [ch]⟩) = run := by
  induction run with
  | nil => rfl
  | cons c cs ih =>
    by_cases h : c = '\n' <;>
      simp [concatValues_cons, h, ih]

theorem scanTokensF_concat :
    ∀ (fuel : Nat) (l : List Char), l.length ≤ fuel →
      concatValues (scanTokensF fuel l) = l := by
  intro fuel
  induction fuel with
  | zero =>
    intro l h
    cases l with
    | nil => rfl
    | cons c rest => simp at h
  | succ fuel ih =>
    intro l h
    cases l with
    | nil => rfl
    | cons c rest =>
      simp only [List.length_cons] at h
      by_cases hn : c = '\n'
      · subst hn
        have hstep : scanTokensF (fuel + 1) ('\n' :: rest)
            = ⟨.newline, ['\n']⟩ :: scanTokensF fuel rest := by
          simp [scanTokensF]
        rw [hstep, concatValues_cons, ih rest (by omega)]
        rfl
      · by_cases hw : jsWhitespace c
        · have hdw : (c :: rest).dropWhile jsWhitespace = rest.dropWhile jsWhitespace :=
            List.dropWhile_cons_of_pos hw
          have hlen : (rest.dropWhile jsWhitespace).length ≤ fuel :=
            le_trans (List.dropWhile_sublist _).length_le (by omega)
          simp only [scanTokensF, if_neg hn, if_pos hw, concatValues_append,
            concatValues_wsRun, hdw, ih _ hlen]
          rw [← hdw, List.takeWhile_append_dropWhile _ _]
        · have hnw : (!jsWhitespace c) = true := by simp [hw]
          have hdw : (c :: rest).dropWhile (fun ch => !jsWhitespace ch)
              = rest.dropWhile (fun ch => !jsWhitespace ch) :=
            List.dropWhile_cons_of_pos hnw
          have hlen : (rest.dropWhile (fun ch => !jsWhitespace ch)).length ≤ fuel :=
            le_trans (List.dropWhile_sublist _).length_le (by omega)
          simp only [scanTokensF, if_neg hn, if_neg hw, concatValues_cons, ih _ hlen, hdw]
          rw [← hdw, List.takeWhile_append_dropWhile _ _]

/-- C2: for every input string, concatenating the `value` fields of all
tokens returned by `tokenize`, in order, equals the input with every CRLF
replaced by LF; no character is dropped or duplicated. -/
theorem tokenize_round_trip (text : List Char) :
    concatValues (tokenize text) = normalizeNewlines text :=
  scanTokensF_concat _ _ le_rfl

/-! ### Non-empty output (C8) -/

/-- C8: for every configuration (including an empty text string) and every
environment, `layoutText` returns at least one page; a page of empty
columns is synthesized when the flow produced none. -/
theorem layoutText_nonempty (hw hc : Bool) (μ : List Char → ℚ)
    (cfg : LayoutConfig) (m : LayoutMetrics) :
    1 ≤ (layoutText hw hc μ cfg m).length := by
  unfold layoutText
  split
  · simp
  · dsimp only
    split
    · simp
    · split
      · simp
      · split
        · simp
        · rename_i hne
          have := List.length_pos.mpr hne
          omega

end Layout

namespace Layout

/-! ### Missing measurement backend (C10) -/

/-- C10: with no `window`, `layoutText` returns exactly one page with
`config.columns` (unclamped) empty columns; with a window but no 2D
context (and a non-empty width list), exactly one page with
`max(config.columns, 1)` empty columns — in both cases independently of
the text and of the measurement function, which are never consulted. -/
theorem layoutText_no_backend (hc : Bool) (μ : List Char → ℚ)
    (cfg : LayoutConfig) (m : LayoutMetrics) :
    layoutText false hc μ cfg m = [createEmptyPage cfg.columns] ∧
    (m.columnWidthsPx ≠ [] →
      layoutText true false μ cfg m = [createEmptyPage (max cfg.columns 1)]) ∧
    (∀ n, ∀ col ∈ (createEmptyPage n).columns, col.lines = []) := by
  refine ⟨rfl, ?_, ?_⟩
  · intro h
    unfold layoutText
    simp [List.length_eq_zero, h]
  · intro n col hcol
    have := List.eq_of_mem_replicate hcol
    rw [this]

theorem layoutText_no_backend_witness :
    layoutText true false (fun _ => 0)
        ⟨['h', 'i'], 2, [], 12, 14/10⟩
        ⟨794, 1123, ⟨38, 38, 38, 38⟩, [100], [0], 500, 2, 16, 22, 1⟩
      = [createEmptyPage (max 2 1)] :=
  (layoutText_no_backend false (fun _ => 0)
    ⟨['h', 'i'], 2, [], 12, 14/10⟩
    ⟨794, 1123, ⟨38, 38, 38, 38⟩, [100], [0], 500, 2, 16, 22, 1⟩).2.1 (by decide)

/-! ### Metrics resolver: custom-width scaling (C5, C6) -/

theorem mmToPx_add (a b : ℚ) : mmToPx (a + b) = mmToPx a + mmToPx b := by
  unfold mmToPx; ring

theorem sum_map_mmToPx_mul (l : List ℚ) (k : ℚ) :
    (l.map fun v => mmToPx (v * k)).sum = mmToPx (l.sum * k) := by
  induction l with
  | nil => simp [mmToPx]
  | cons v vs ih =>
    simp only [List.map_cons, List.sum_cons, ih]
    rw [show (v + vs.sum) * k = v * k + vs.sum * k by ring, mmToPx_add]

theorem foldl_add_eq_sum (l : List ℚ) :
    l.foldl (fun acc v => acc + v) 0 = l.sum := by
  rw [List.sum_eq_foldl]

theorem computeMetrics_custom_pos (columns : Nat) (columnWidthsMm : List ℚ)
    (gapMm : ℚ) (margins : Margins) (fontSize lineSpacing : ℚ)
    (hS : 0 < (requestedWidths columnWidthsMm (max columns 1)).sum) :
    (computeMetrics columns .custom columnWidthsMm gapMm margins fontSize
        lineSpacing).columnWidthsPx
      = (requestedWidths columnWidthsMm (max columns 1)).map
          (fun v => mmToPx (v * (availableWidthMmOf columns gapMm margins
            / (requestedWidths columnWidthsMm (max columns 1)).sum))) ∧
    (computeMetrics columns .custom columnWidthsMm gapMm margins fontSize
        lineSpacing).customScale
      = availableWidthMmOf columns gapMm margins
          / (requestedWidths columnWidthsMm (max columns 1)).sum := by
  have hcond : ¬ (((columnWidthsMm.take (max columns 1)).map fun v => max v 0).foldl
      (fun acc v => acc + v) 0 ≤ 0) := by
    rw [foldl_add_eq_sum]
    exact not_le.mpr hS
  have hmap : ((columnWidthsMm.take (max columns 1)).map fun v => max v 0)
      = requestedWidths columnWidthsMm (max columns 1) := rfl
  unfold computeMetrics
  dsimp only
  rw [if_neg hcond]
  simp only [foldl_add_eq_sum, hmap, availableWidthMmOf, PAGE_WIDTH_MM]
  exact ⟨trivial, trivial⟩

theorem computeMetrics_custom_nonpos (columns : Nat) (columnWidthsMm : List ℚ)
    (gapMm : ℚ) (margins : Margins) (fontSize lineSpacing : ℚ)
    (hS : (requestedWidths columnWidthsMm (max columns 1)).sum ≤ 0) :
    (computeMetrics columns .custom columnWidthsMm gapMm margins fontSize
        lineSpacing).columnWidthsPx
      = List.replicate (max columns 1)
          (availableWidthPxOf columns gapMm margins / ((max columns 1 : Nat) : ℚ)) ∧
    (computeMetrics columns .custom columnWidthsMm gapMm margins fontSize
        lineSpacing).customScale = 1 := by
  have hcond : (((columnWidthsMm.take (max columns 1)).map fun v => max v 0).foldl
      (fun acc v => acc + v) 0 ≤ 0) := by
    rw [foldl_add_eq_sum]
    exact hS
  unfold computeMetrics
  dsimp only
  rw [if_pos hcond]
  exact ⟨rfl, rfl⟩

/-- C5: in custom mode, when the clamped requested widths sum to `S > 0`
and the available width (in mm, as clamped by `computeMetrics`) is `A`,
every resolved column width is `requested[i] * (A/S)` (converted to
pixels), the resolved widths sum to exactly `A` (converted to pixels),
and the reported scale is `A/S` — for every margins/gap/column-count
input, including ones where the available-width clamps engage. -/
theorem computeMetrics_custom_scaling (columns : Nat) (columnWidthsMm : List ℚ)
    (gapMm : ℚ) (margins : Margins) (fontSize lineSpacing : ℚ)
    (hS : 0 < (requestedWidths columnWidthsMm (max columns 1)).sum) :
    (computeMetrics columns .custom columnWidthsMm gapMm margins fontSize
        lineSpacing).columnWidthsPx
      = (requestedWidths columnWidthsMm (max columns 1)).map
          (fun v => mmToPx (v * (availableWidthMmOf columns gapMm margins
            / (requestedWidths columnWidthsMm (max columns 1)).sum))) ∧
    (computeMetrics columns .custom columnWidthsMm gapMm margins fontSize
        lineSpacing).columnWidthsPx.sum
      = mmToPx (availableWidthMmOf columns gapMm margins) ∧
    (computeMetrics columns .custom columnWidthsMm gapMm margins fontSize
        lineSpacing).customScale
      = availableWidthMmOf columns gapMm margins
          / (requestedWidths columnWidthsMm (max columns 1)).sum := by
  obtain ⟨h1, h2⟩ :=
    computeMetrics_custom_pos columns columnWidthsMm gapMm margins fontSize lineSpacing hS
  refine ⟨h1, ?_, h2⟩
  rw [h1, sum_map_mmToPx_mul]
  congr 1
  rw [mul_comm]
  exact div_mul_cancel₀ _ (ne_of_gt hS)

theorem computeMetrics_custom_scaling_witness :
    0 < (requestedWidths [30, 60] (max 2 1)).sum ∧
    (computeMetrics 2 .custom [30, 60] 2 ⟨10, 10, 10, 10⟩ 12 (14/10)).columnWidthsPx.sum
      = mmToPx (availableWidthMmOf 2 2 ⟨10, 10, 10, 10⟩) :=
  ⟨by decide,
    (computeMetrics_custom_scaling 2 [30, 60] 2 ⟨10, 10, 10, 10⟩ 12 (14/10)
      (by decide)).2.1⟩

/-- C6 counterexample: with 3 requested columns but a supplied width list
of length 1 (and positive sum), the resolved width list has 1 entry, not
`columnCount = 3`: `slice(0, columnCount)` does not pad a short list. -/
theorem computeMetrics_short_list_counterexample :
    (computeMetrics 3 .custom [10] 0 ⟨10, 10, 10, 10⟩ 12 (14/10)).columnWidthsPx.length = 1 ∧
    ¬ (computeMetrics 3 .custom [10] 0 ⟨10, 10, 10, 10⟩ 12
        (14/10)).columnWidthsPx.length = max 3 1 := by
  constructor <;> decide

/-- C6 (amended): in custom mode the requested list is the first
`min(columnCount, supplied.length)` entries clamped at 0 — a supplied list
shorter than `columnCount` is truncated, not padded — so with positive
clamped sum the resolved list has `min(columnCount, supplied.length)`
entries; when the clamped sum is ≤ 0, the resolved widths are the equal
division `availableWidthPx / columnCount`, `columnCount` of them, and the
reported scale is 1. -/
theorem computeMetrics_custom_shape (columns : Nat) (columnWidthsMm : List ℚ)
    (gapMm : ℚ) (margins : Margins) (fontSize lineSpacing : ℚ) :
    (0 < (requestedWidths columnWidthsMm (max columns 1)).sum →
      (computeMetrics columns .custom columnWidthsMm gapMm margins fontSize
          lineSpacing).columnWidthsPx.length
        = min (max columns 1) columnWidthsMm.length) ∧
    ((requestedWidths columnWidthsMm (max columns 1)).sum ≤ 0 →
      (computeMetrics columns .custom columnWidthsMm gapMm margins fontSize
          lineSpacing).columnWidthsPx
        = List.replicate (max columns 1)
            (availableWidthPxOf columns gapMm margins / ((max columns 1 : Nat) : ℚ)) ∧
      (computeMetrics columns .custom columnWidthsMm gapMm margins fontSize
          lineSpacing).customScale = 1) := by
  constructor
  · intro h
    rw [(computeMetrics_custom_pos columns columnWidthsMm gapMm margins fontSize
      lineSpacing h).1]
    simp [requestedWidths]
  · intro h
    exact computeMetrics_custom_nonpos columns columnWidthsMm gapMm margins fontSize
      lineSpacing h

theorem computeMetrics_custom_shape_witness :
    ((computeMetrics 2 .custom [10, 20, 30] 2 ⟨10, 10, 10, 10⟩ 12
        (14/10)).columnWidthsPx.length = min (max 2 1) 3) ∧
    (computeMetrics 2 .custom [-5, 0] 2 ⟨10, 10, 10, 10⟩ 12 (14/10)).customScale = 1 :=
  ⟨by
      have h := (computeMetrics_custom_shape 2 [10, 20, 30] 2 ⟨10, 10, 10, 10⟩ 12
        (14/10)).1 (by decide)
      simpa using h,
    ((computeMetrics_custom_shape 2 [-5, 0] 2 ⟨10, 10, 10, 10⟩ 12
      (14/10)).2 (by decide)).2⟩

end Layout

namespace Layout

/-! ### Height invariant (C1) -/

theorem heightInv_init (K : FlowCtx) (hK : goodHeights K) : heightInv K flowInit := by
  refine ⟨?_, ?_, ?_, ?_⟩
  · intro p hp; cases hp
  · intro c hc; cases hc
  · simp [flowInit]
  · exact le_trans hK.1 hK.2

theorem finishColumn_heightInv (K : FlowCtx) (hK : goodHeights K) (s : FlowState)
    (h : heightInv K s) : heightInv K (finishColumn K s) := by
  obtain ⟨hp, hc, hlink, hb⟩ := h
  have hcol : colOk K ⟨s.currentColumnLines⟩ := by
    simp only [colOk]
    exact hlink ▸ hb
  have hzero : (0 : ℚ) ≤ K.columnHeightPx + 1/10 := le_trans hK.1 hK.2
  have hall : ∀ c ∈ s.currentPage ++ [⟨s.currentColumnLines⟩], colOk K c := by
    intro c hcmem
    rcases List.mem_append.mp hcmem with hin | hin
    · exact hc c hin
    · rcases List.mem_singleton.mp hin with rfl
      exact hcol
  unfold finishColumn
  dsimp only
  split
  · refine ⟨?_, ?_, ?_, ?_⟩
    · intro p hpmem
      rcases List.mem_append.mp hpmem with hin | hin
      · exact hp p hin
      · rcases List.mem_singleton.mp hin with rfl
        exact hall
    · intro c hcmem; cases hcmem
    · simp
    · exact hzero
  · exact ⟨hp, hall, by simp, hzero⟩

theorem ensure_post (K : FlowCtx) (hK : goodHeights K) (s : FlowState)
    (h : heightInv K s) :
    heightInv K (ensureColumnSpaceForNextLine K s) ∧
    (ensureColumnSpaceForNextLine K s).cursorY + K.lineHeightPx
      ≤ K.columnHeightPx + 1/10 := by
  unfold ensureColumnSpaceForNextLine
  split
  · exact ⟨h, by assumption⟩
  · refine ⟨finishColumn_heightInv K hK s h, ?_⟩
    have hcy : (finishColumn K s).cursorY = 0 := by
      unfold finishColumn
      dsimp only
      split <;> rfl
    rw [hcy, zero_add]
    exact hK.2

theorem commitLine_heightInv (K : FlowCtx) (hK : goodHeights K) (raw : List Char)
    (s : FlowState) (h : heightInv K s) : heightInv K (commitLine K raw s) := by
  obtain ⟨h1, h2⟩ := ensure_post K hK s h
  obtain ⟨hp, hc, hlink, _⟩ := h1
  unfold commitLine
  refine ⟨hp, hc, ?_, h2⟩
  simp only [List.length_append, List.length_singleton]
  push_cast
  rw [hlink]
  ring

theorem splitLongWordF_heightInv (K : FlowCtx) (hK : goodHeights K) :
    ∀ (fuel : Nat) (w : List Char) (s : FlowState), heightInv K s →
      heightInv K (splitLongWordF K fuel w s) := by
  intro fuel
  induction fuel with
  | zero =>
    intro w s h
    cases w with
    | nil => exact h
    | cons c cs => exact h
  | succ fuel ih =>
    intro w s h
    cases w with
    | nil => exact h
    | cons c cs =>
      simp only [splitLongWordF]
      split
      · obtain ⟨h1, _⟩ := ensure_post K hK s h
        exact ⟨h1.1, h1.2.1, h1.2.2.1, h1.2.2.2⟩
      · exact ih _ _ (commitLine_heightInv K hK _ _
          (ensure_post K hK s h).1)

theorem processToken_heightInv (K : FlowCtx) (hK : goodHeights K) (t : Token)
    (s : FlowState) (h : heightInv K s) : heightInv K (processToken K t s) := by
  unfold processToken
  match t.type with
  | .newline =>
    dsimp only
    split
    · exact commitLine_heightInv K hK _ _ h
    · exact commitLine_heightInv K hK _ _ h
  | .space =>
    dsimp only
    split
    · exact h
    · split
      · exact ⟨h.1, h.2.1, h.2.2.1, h.2.2.2⟩
      · exact commitLine_heightInv K hK _ _ h
  | .word =>
    dsimp only
    have hs1 : heightInv K
        (if 0 < s.currentLineWidth ∧
            getColumnWidth K s + 1/10 < s.currentLineWidth + K.measure t.value
        then commitLine K s.currentLine s else s) := by
      split
      · exact commitLine_heightInv K hK _ _ h
      · exact h
    revert hs1
    generalize (if 0 < s.currentLineWidth ∧
        getColumnWidth K s + 1/10 < s.currentLineWidth + K.measure t.value
      then commitLine K s.currentLine s else s) = s1
    intro hs1
    split
    · have hs2 : heightInv K
          (if s1.currentLine = [] then ensureColumnSpaceForNextLine K s1 else s1) := by
        split
        · exact (ensure_post K hK s1 hs1).1
        · exact hs1
      revert hs2
      generalize (if s1.currentLine = [] then ensureColumnSpaceForNextLine K s1 else s1) = s2
      intro hs2
      exact ⟨hs2.1, hs2.2.1, hs2.2.2.1, hs2.2.2.2⟩
    · apply splitLongWordF_heightInv K hK
      split
      · exact commitLine_heightInv K hK _ _ hs1
      · exact hs1

theorem foldl_processToken_heightInv (K : FlowCtx) (hK : goodHeights K) :
    ∀ (ts : List Token) (s : FlowState), heightInv K s →
      heightInv K (ts.foldl (fun s t => processToken K t s) s) := by
  intro ts
  induction ts with
  | nil => intro s h; exact h
  | cons t ts ih =>
    intro s h
    exact ih _ (processToken_heightInv K hK t s h)

theorem flushPages_pageOk (K : FlowCtx) (hK : goodHeights K) (s : FlowState)
    (h : heightInv K s) : ∀ p ∈ flushPages K s, pageOk K p := by
  have hzero : (0 : ℚ) ≤ K.columnHeightPx + 1/10 := le_trans hK.1 hK.2
  have hinv1 : heightInv K
      (if s.currentLine ≠ [] then commitLine K s.currentLine s else s) := by
    split
    · exact commitLine_heightInv K hK _ _ h
    · exact h
  unfold flushPages
  dsimp only
  revert hinv1
  generalize (if s.currentLine ≠ [] then commitLine K s.currentLine s else s) = s1
  intro hinv1
  obtain ⟨hp, hc, hlink, hb⟩ := hinv1
  split
  · intro p hpmem
    rcases List.mem_append.mp hpmem with hin | hin
    · exact hp p hin
    · rcases List.mem_singleton.mp hin with rfl
      intro c hcmem
      rcases List.mem_append.mp hcmem with hin2 | hin2
      · rcases List.mem_append.mp hin2 with hin3 | hin3
        · exact hc c hin3
        · rcases List.mem_singleton.mp hin3 with rfl
          simp only [colOk]
          exact hlink ▸ hb
      · have := List.eq_of_mem_replicate hin2
        rw [this]
        simp only [colOk]
        simpa using hzero
  · exact hp

/-- C1 counterexample: with line height `2` exceeding column height `1`
(plus tolerance), `layoutText` emits a column whose single line already
overflows the budget, so the claimed invariant fails as stated. -/
theorem layoutText_overflow_counterexample :
    ∃ p ∈ layoutText true true (fun _ => 0) ⟨['a'], 1, [], 12, 1⟩
        ⟨794, 1123, ⟨38, 38, 38, 38⟩, [10], [0], 1, 2, 16, 2, 1⟩,
      ∃ c ∈ p.columns, ¬ ((c.lines.length : ℚ) * 2 ≤ 1 + 1/10) := by
  decide

/-- C1 (amended): for every input text, measurement function and metrics
whose line height is non-negative and itself fits the column budget
(`0 ≤ lineHeightPx` and `lineHeightPx ≤ columnHeightPx + 0.1`), every
column of every page returned by `layoutText` satisfies
`lines.length * lineHeightPx ≤ columnHeightPx + 0.1`.  (When a single
line height alone exceeds the budget the code still emits the line, and
the bound fails — see the counterexample.) -/
theorem layoutText_no_overflow (hw hc : Bool) (μ : List Char → ℚ)
    (cfg : LayoutConfig) (m : LayoutMetrics)
    (h0 : 0 ≤ m.lineHeightPx) (h1 : m.lineHeightPx ≤ m.columnHeightPx + 1/10) :
    ∀ p ∈ layoutText hw hc μ cfg m, ∀ c ∈ p.columns,
      (c.lines.length : ℚ) * m.lineHeightPx ≤ m.columnHeightPx + 1/10 := by
  have hzero : (0 : ℚ) ≤ m.columnHeightPx + 1/10 := le_trans h0 h1
  have hempty : ∀ n, ∀ p ∈ [createEmptyPage n], ∀ c ∈ p.columns,
      (c.lines.length : ℚ) * m.lineHeightPx ≤ m.columnHeightPx + 1/10 := by
    intro n p hpmem c hcmem
    rcases List.mem_singleton.mp hpmem with rfl
    have := List.eq_of_mem_replicate hcmem
    rw [this]
    simpa using hzero
  unfold layoutText
  split
  · exact hempty _
  · dsimp only
    split
    · exact hempty _
    · split
      · exact hempty _
      · set K : FlowCtx := ⟨μ, m.columnWidthsPx, max cfg.columns 1,
          m.lineHeightPx, m.columnHeightPx⟩ with hKdef
        have hK : goodHeights K := ⟨h0, h1⟩
        have hflow := flushPages_pageOk K hK _
          (foldl_processToken_heightInv K hK (tokenize cfg.text) flowInit
            (heightInv_init K hK))
        split
        · exact hempty _
        · intro p hpmem c hcmem
          exact hflow p hpmem c hcmem

theorem layoutText_no_overflow_witness :
    (0 : ℚ) ≤ 10 ∧ (10 : ℚ) ≤ 500 + 1/10 ∧
    ∀ p ∈ layoutText true true (fun l => (10 * l.length : ℤ))
        ⟨['a', 'a', ' ', 'b'], 2, [], 12, 1⟩
        ⟨794, 1123, ⟨38, 38, 38, 38⟩, [100, 10], [0, 102], 500, 2, 16, 10, 1⟩,
      ∀ c ∈ p.columns, (c.lines.length : ℚ) * 10 ≤ 500 + 1/10 :=
  ⟨by decide, by decide,
    layoutText_no_overflow true true (fun l => (10 * l.length : ℤ))
      ⟨['a', 'a', ' ', 'b'], 2, [], 12, 1⟩
      ⟨794, 1123, ⟨38, 38, 38, 38⟩, [100, 10], [0, 102], 500, 2, 16, 10, 1⟩
      (by decide) (by decide)⟩

end Layout

namespace Layout

/-! ### Column-count invariant (C4) -/

theorem pagesShapeInv_init (K : FlowCtx) (hcc : 0 < K.columnCount) :
    pagesShapeInv K flowInit := by
  refine ⟨?_, ?_⟩
  · intro p hp; cases hp
  · simpa [flowInit] using hcc

theorem finishColumn_pagesShapeInv (K : FlowCtx) (s : FlowState)
    (h : pagesShapeInv K s) : pagesShapeInv K (finishColumn K s) := by
  obtain ⟨hp, hlen⟩ := h
  unfold finishColumn
  dsimp only
  split
  · rename_i hfull
    refine ⟨?_, ?_⟩
    · intro p hpmem
      rcases List.mem_append.mp hpmem with hin | hin
      · exact hp p hin
      · rcases List.mem_singleton.mp hin with rfl
        exact hfull
    · simpa using Nat.lt_of_le_of_lt (Nat.zero_le _) hlen
  · rename_i hne
    refine ⟨hp, ?_⟩
    simp only [List.length_append, List.length_singleton]
    simp only [List.length_append, List.length_singleton] at hne
    omega

theorem ensure_pagesShapeInv (K : FlowCtx) (s : FlowState)
    (h : pagesShapeInv K s) :
    pagesShapeInv K (ensureColumnSpaceForNextLine K s) := by
  unfold ensureColumnSpaceForNextLine
  split
  · exact h
  · exact finishColumn_pagesShapeInv K s h

theorem commitLine_pagesShapeInv (K : FlowCtx) (raw : List Char) (s : FlowState)
    (h : pagesShapeInv K s) : pagesShapeInv K (commitLine K raw s) := by
  have h1 := ensure_pagesShapeInv K s h
  unfold commitLine
  exact ⟨h1.1, h1.2⟩

theorem splitLongWordF_pagesShapeInv (K : FlowCtx) :
    ∀ (fuel : Nat) (w : List Char) (s : FlowState), pagesShapeInv K s →
      pagesShapeInv K (splitLongWordF K fuel w s) := by
  intro fuel
  induction fuel with
  | zero =>
    intro w s h
    cases w with
    | nil => exact h
    | cons c cs => exact h
  | succ fuel ih =>
    intro w s h
    cases w with
    | nil => exact h
    | cons c cs =>
      simp only [splitLongWordF]
      split
      · have h1 := ensure_pagesShapeInv K s h
        exact ⟨h1.1, h1.2⟩
      · exact ih _ _ (commitLine_pagesShapeInv K _ _ (ensure_pagesShapeInv K s h))

theorem processToken_pagesShapeInv (K : FlowCtx) (t : Token) (s : FlowState)
    (h : pagesShapeInv K s) : pagesShapeInv K (processToken K t s) := by
  unfold processToken
  match t.type with
  | .newline =>
    dsimp only
    split
    · exact commitLine_pagesShapeInv K _ _ h
    · exact commitLine_pagesShapeInv K _ _ h
  | .space =>
    dsimp only
    split
    · exact h
    · split
      · exact ⟨h.1, h.2⟩
      · exact commitLine_pagesShapeInv K _ _ h
  | .word =>
    dsimp only
    have hs1 : pagesShapeInv K
        (if 0 < s.currentLineWidth ∧
            getColumnWidth K s + 1/10 < s.currentLineWidth + K.measure t.value
        then commitLine K s.currentLine s else s) := by
      split
      · exact commitLine_pagesShapeInv K _ _ h
      · exact h
    revert hs1
    generalize (if 0 < s.currentLineWidth ∧
        getColumnWidth K s + 1/10 < s.currentLineWidth + K.measure t.value
      then commitLine K s.currentLine s else s) = s1
    intro hs1
    split
    · have hs2 : pagesShapeInv K
          (if s1.currentLine = [] then ensureColumnSpaceForNextLine K s1 else s1) := by
        split
        · exact ensure_pagesShapeInv K s1 hs1
        · exact hs1
      revert hs2
      generalize (if s1.currentLine = [] then ensureColumnSpaceForNextLine K s1 else s1) = s2
      intro hs2
      exact ⟨hs2.1, hs2.2⟩
    · apply splitLongWordF_pagesShapeInv K
      split
      · exact commitLine_pagesShapeInv K _ _ hs1
      · exact hs1

theorem foldl_processToken_pagesShapeInv (K : FlowCtx) :
    ∀ (ts : List Token) (s : FlowState), pagesShapeInv K s →
      pagesShapeInv K (ts.foldl (fun s t => processToken K t s) s) := by
  intro ts
  induction ts with
  | nil => intro s h; exact h
  | cons t ts ih =>
    intro s h
    exact ih _ (processToken_pagesShapeInv K t s h)

theorem flushPages_column_count (K : FlowCtx) (s : FlowState)
    (h : pagesShapeInv K s) :
    ∀ p ∈ flushPages K s, p.columns.length = K.columnCount := by
  have hinv1 : pagesShapeInv K
      (if s.currentLine ≠ [] then commitLine K s.currentLine s else s) := by
    split
    · exact commitLine_pagesShapeInv K _ _ h
    · exact h
  unfold flushPages
  dsimp only
  revert hinv1
  generalize (if s.currentLine ≠ [] then commitLine K s.currentLine s else s) = s1
  intro hinv1
  obtain ⟨hp, hlen⟩ := hinv1
  split
  · intro p hpmem
    rcases List.mem_append.mp hpmem with hin | hin
    · exact hp p hin
    · rcases List.mem_singleton.mp hin with rfl
      simp only [List.length_append, List.length_replicate, List.length_singleton]
      omega
  · exact hp

/-- C4: for every configuration with at least one requested column (the
UI clamps the count to `[1, 12]` before `layoutText` runs), every page
returned by `layoutText` has exactly `columnCount = config.columns`
columns: pages closed mid-flow close precisely at `columnCount` columns,
and the final page is padded with empty columns up to `columnCount`. -/
theorem layoutText_column_count (hw hc : Bool) (μ : List Char → ℚ)
    (cfg : LayoutConfig) (m : LayoutMetrics) (hcols : 1 ≤ cfg.columns) :
    ∀ p ∈ layoutText hw hc μ cfg m, p.columns.length = cfg.columns := by
  have hmax : max cfg.columns 1 = cfg.columns := max_eq_left hcols
  have hempty : ∀ n, ∀ p ∈ [createEmptyPage n], p.columns.length = n := by
    intro n p hpmem
    rcases List.mem_singleton.mp hpmem with rfl
    simp [createEmptyPage]
  unfold layoutText
  split
  · exact hempty _
  · dsimp only
    split
    · rw [hmax]; exact hempty _
    · split
      · rw [hmax]; exact hempty _
      · set K : FlowCtx := ⟨μ, m.columnWidthsPx, max cfg.columns 1,
          m.lineHeightPx, m.columnHeightPx⟩ with hKdef
        have hflow := flushPages_column_count K _
          (foldl_processToken_pagesShapeInv K (tokenize cfg.text) flowInit
            (pagesShapeInv_init K (by simp [hKdef])))
        split
        · rw [hmax]; exact hempty _
        · intro p hpmem
          rw [← hmax]
          exact hflow p hpmem

theorem layoutText_column_count_witness :
    1 ≤ 2 ∧
    ∀ p ∈ layoutText true true (fun l => (10 * l.length : ℤ))
        ⟨['a', 'a', ' ', 'b'], 2, [], 12, 1⟩
        ⟨794, 1123, ⟨38, 38, 38, 38⟩, [100, 10], [0, 102], 500, 2, 16, 10, 1⟩,
      p.columns.length = 2 :=
  ⟨by decide,
    layoutText_column_count true true (fun l => (10 * l.length : ℤ))
      ⟨['a', 'a', ' ', 'b'], 2, [], 12, 1⟩
      ⟨794, 1123, ⟨38, 38, 38, 38⟩, [100, 10], [0, 102], 500, 2, 16, 10, 1⟩
      (by decide)⟩

end Layout

namespace Layout

/-! ### Binary-search and split progress (C9, shared with C3) -/

theorem searchBestF_cases (μ : List Char → ℚ) (W : ℚ) (word : List Char) :
    ∀ (fuel : Nat) (low high best : ℤ),
      searchBestF μ W word fuel low high best = best ∨
      (low ≤ searchBestF μ W word fuel low high best ∧
       searchBestF μ W word fuel low high best ≤ high ∧
       μ (word.take (searchBestF μ W word fuel low high best).toNat) ≤ W + 1/10) := by
  intro fuel
  induction fuel with
  | zero => intro low high best; exact Or.inl rfl
  | succ fuel ih =>
    intro low high best
    simp only [searchBestF]
    split
    · rename_i hle
      have hmid1 : low ≤ (low + high) / 2 := by omega
      have hmid2 : (low + high) / 2 ≤ high := by omega
      split
      · rename_i hfit
        rcases ih ((low + high) / 2 + 1) high ((low + high) / 2) with h | h
        · right
          rw [h]
          exact ⟨hmid1, hmid2, hfit⟩
        · right
          exact ⟨le_trans (by omega) h.1, h.2.1, h.2.2⟩
      · rcases ih low ((low + high) / 2 - 1) best with h | h
        · exact Or.inl h
        · right
          exact ⟨h.1, le_trans h.2.1 (by omega), h.2.2⟩
    · exact Or.inl rfl

theorem chooseBest_bounds (μ : List Char → ℚ) (W : ℚ) (r : List Char) (h : r ≠ []) :
    1 ≤ chooseBest μ W r ∧ chooseBest μ W r ≤ (r.length : ℤ) := by
  have hlen : 1 ≤ (r.length : ℤ) := by
    cases r with
    | nil => exact absurd rfl h
    | cons c cs => simp
  unfold chooseBest searchBest
  rcases searchBestF_cases μ W r (((r.length : ℤ) + 1 - 1).toNat) 1 (r.length : ℤ) 0
    with hcase | hcase
  · rw [hcase]
    simp only [if_pos rfl]
    exact ⟨le_refl 1, hlen⟩
  · obtain ⟨h1, h2, _⟩ := hcase
    rw [if_neg (by omega)]
    exact ⟨h1, h2⟩

theorem chooseBest_fit (μ : List Char → ℚ) (W : ℚ) (r : List Char) :
    chooseBest μ W r = 1 ∨ μ (r.take (chooseBest μ W r).toNat) ≤ W + 1/10 := by
  unfold chooseBest searchBest
  rcases searchBestF_cases μ W r (((r.length : ℤ) + 1 - 1).toNat) 1 (r.length : ℤ) 0
    with hcase | hcase
  · rw [hcase]
    simp only [if_pos rfl]
    exact Or.inl rfl
  · obtain ⟨h1, _, h3⟩ := hcase
    rw [if_neg (by omega)]
    exact Or.inr h3

theorem chooseBest_eq_length (μ : List Char → ℚ) (W : ℚ) (r : List Char)
    (h : chooseBest μ W r = (r.length : ℤ)) (h2 : 2 ≤ r.length) : μ r ≤ W + 1/10 := by
  rcases chooseBest_fit μ W r with h1 | h1
  · rw [h] at h1
    have : r.length = 1 := by exact_mod_cast h1
    omega
  · rw [h] at h1
    simpa [List.take_length] using h1

theorem splitLongWordF_fuel_irrelevant (K : FlowCtx) :
    ∀ (fuel fuel2 : Nat) (w : List Char) (s : FlowState),
      w.length ≤ fuel → w.length ≤ fuel2 →
      splitLongWordF K fuel w s = splitLongWordF K fuel2 w s := by
  intro fuel
  induction fuel with
  | zero =>
    intro fuel2 w s h1 h2
    have : w = [] := List.length_eq_zero.mp (Nat.le_zero.mp h1)
    subst this
    cases fuel2 with
    | zero => rfl
    | succ fuel2 => rfl
  | succ fuel ih =>
    intro fuel2 w s h1 h2
    cases w with
    | nil =>
      cases fuel2 with
      | zero => rfl
      | succ fuel2 => rfl
    | cons c cs =>
      cases fuel2 with
      | zero => simp at h2
      | succ fuel2 =>
        simp only [splitLongWordF]
        split
        · rfl
        · rename_i hne
          have hb := chooseBest_bounds K.measure (getColumnWidth K s) (c :: cs)
            (by simp)
          have hlen : ((c :: cs).drop
              (chooseBest K.measure (getColumnWidth K s) (c :: cs)).toNat).length
              = (c :: cs).length
                - (chooseBest K.measure (getColumnWidth K s) (c :: cs)).toNat := by
            simp [List.length_drop]
          apply ih
          · simp only [List.length_cons] at h1 ⊢
            rw [hlen]
            simp only [List.length_cons]
            omega
          · simp only [List.length_cons] at h2 ⊢
            rw [hlen]
            simp only [List.length_cons]
            omega

/-- C9: `layoutText` terminates on every finite input: the token loop is
a single fold over the token list, and `splitLongWord` makes strict
progress on every iteration — on a non-empty remainder the chosen prefix
length is at least 1 (one character is force-taken when nothing fits), so
the remainder strictly shrinks and fuel `word.length` computes the loop's
fixed point (any sufficient fuel yields the same result). -/
theorem splitLongWord_terminates (K : FlowCtx) (μ : List Char → ℚ) (W : ℚ)
    (r w : List Char) (s : FlowState) (fuel : Nat)
    (hr : r ≠ []) (hfuel : w.length ≤ fuel) :
    (1 ≤ chooseBest μ W r ∧
      (r.drop (chooseBest μ W r).toNat).length < r.length) ∧
    splitLongWordF K fuel w s = splitLongWord K w s := by
  have hb := chooseBest_bounds μ W r hr
  have hrlen : 1 ≤ r.length := by
    cases r with
    | nil => exact absurd rfl hr
    | cons c cs => simp
  refine ⟨⟨hb.1, ?_⟩, ?_⟩
  · rw [List.length_drop]
    omega
  · exact splitLongWordF_fuel_irrelevant K fuel w.length w s hfuel le_rfl

theorem splitLongWord_terminates_witness :
    ((1 ≤ chooseBest (fun l => (10 * l.length : ℤ)) 5 ['a', 'b'] ∧
      ((['a', 'b'].drop
        (chooseBest (fun l => (10 * l.length : ℤ)) 5 ['a', 'b']).toNat).length
          < ['a', 'b'].length)) ∧
     splitLongWordF ⟨fun l => (10 * l.length : ℤ), [5], 1, 1, 1000⟩ 7 ['a', 'b'] flowInit
       = splitLongWord ⟨fun l => (10 * l.length : ℤ), [5], 1, 1, 1000⟩ ['a', 'b'] flowInit) :=
  splitLongWord_terminates ⟨fun l => (10 * l.length : ℤ), [5], 1, 1, 1000⟩
    (fun l => (10 * l.length : ℤ)) 5 ['a', 'b'] ['a', 'b'] flowInit 7
    (by decide) (by decide)

end Layout

namespace Layout

/-! ### Split segments (C3) -/

theorem linesOfCols_foldr (xs : List LayoutColumn) (e : List (List Char)) :
    xs.foldr (fun c acc => c.lines ++ acc) e = linesOfCols xs ++ e := by
  induction xs with
  | nil => rfl
  | cons x xs ih => simp [linesOfCols, ih, List.append_assoc]

theorem pagesLines_foldr (xs : List LayoutPage) (e : List (List Char)) :
    xs.foldr (fun p acc => linesOfCols p.columns ++ acc) e = pagesLines xs ++ e := by
  induction xs with
  | nil => rfl
  | cons x xs ih => simp [pagesLines, ih, List.append_assoc]

theorem linesOfCols_append (a b : List LayoutColumn) :
    linesOfCols (a ++ b) = linesOfCols a ++ linesOfCols b := by
  show (a ++ b).foldr (fun c acc => c.lines ++ acc) [] = _
  rw [List.foldr_append, linesOfCols_foldr]
  rfl

theorem pagesLines_append (a b : List LayoutPage) :
    pagesLines (a ++ b) = pagesLines a ++ pagesLines b := by
  show (a ++ b).foldr (fun p acc => linesOfCols p.columns ++ acc) [] = _
  rw [List.foldr_append, pagesLines_foldr]
  rfl

theorem pagesLines_singleton (p : LayoutPage) :
    pagesLines [p] = linesOfCols p.columns := by
  show linesOfCols p.columns ++ [] = _
  rw [List.append_nil]

theorem linesOfCols_singleton (c : LayoutColumn) : linesOfCols [c] = c.lines := by
  show c.lines ++ [] = _
  rw [List.append_nil]

theorem committedLines_finishColumn (K : FlowCtx) (s : FlowState) :
    committedLines (finishColumn K s) = committedLines s := by
  unfold finishColumn
  dsimp only
  split
  · show pagesLines (s.pages ++ [⟨s.currentPage ++ [⟨s.currentColumnLines⟩]⟩])
        ++ linesOfCols [] ++ ([] : List (List Char)) = committedLines s
    rw [pagesLines_append, pagesLines_singleton]
    show pagesLines s.pages
        ++ linesOfCols (s.currentPage ++ [⟨s.currentColumnLines⟩])
        ++ linesOfCols [] ++ ([] : List (List Char)) = committedLines s
    rw [linesOfCols_append, linesOfCols_singleton]
    show pagesLines s.pages ++ (linesOfCols s.currentPage ++ s.currentColumnLines)
        ++ ([] : List (List Char)) ++ ([] : List (List Char)) = committedLines s
    rw [List.append_nil, List.append_nil, committedLines, List.append_assoc]
  · show pagesLines s.pages
        ++ linesOfCols (s.currentPage ++ [⟨s.currentColumnLines⟩])
        ++ ([] : List (List Char)) = committedLines s
    rw [linesOfCols_append, linesOfCols_singleton, List.append_nil,
      committedLines, List.append_assoc]

theorem committedLines_ensure (K : FlowCtx) (s : FlowState) :
    committedLines (ensureColumnSpaceForNextLine K s) = committedLines s := by
  unfold ensureColumnSpaceForNextLine
  split
  · rfl
  · exact committedLines_finishColumn K s

theorem committedLines_commitLine (K : FlowCtx) (raw : List Char) (s : FlowState) :
    committedLines (commitLine K raw s) = committedLines s ++
      [if trimTrailing raw = [] then [nbsp] else trimTrailing raw] := by
  unfold commitLine
  dsimp only
  rw [show committedLines { ensureColumnSpaceForNextLine K s with
        currentColumnLines := (ensureColumnSpaceForNextLine K s).currentColumnLines ++
          [if trimTrailing raw = [] then [nbsp] else trimTrailing raw],
        cursorY := (ensureColumnSpaceForNextLine K s).cursorY + K.lineHeightPx,
        currentLine := [], currentLineWidth := 0 }
      = committedLines (ensureColumnSpaceForNextLine K s) ++
          [if trimTrailing raw = [] then [nbsp] else trimTrailing raw] from by
    simp [committedLines, List.append_assoc]]
  rw [committedLines_ensure]

theorem trimTrailing_eq_self (l : List Char) (h : ∀ c ∈ l, jsWhitespace c = false) :
    trimTrailing l = l := by
  unfold trimTrailing
  cases hr : l.reverse with
  | nil =>
    have : l = [] := by simpa using congrArg List.reverse hr
    simp [this]
  | cons c cs =>
    have hcmem : c ∈ l := by
      rw [← List.mem_reverse, hr]
      exact List.mem_cons_self c cs
    rw [List.dropWhile_cons_of_neg (by simp [h c hcmem])]
    rw [← hr, List.reverse_reverse]

theorem getColumnWidth_const (K : FlowCtx) (W : ℚ) (hcw : K.columnWidths = [W])
    (s : FlowState) : getColumnWidth K s = W := by
  unfold getColumnWidth
  rw [hcw]
  dsimp only
  split
  · rename_i hlt
    have h0 : s.currentPage.length = 0 := Nat.lt_one_iff.mp (by simpa using hlt)
    simp [h0]
  · rfl

theorem splitLongWordF_segments (K : FlowCtx) (W : ℚ) (hcw : K.columnWidths = [W]) :
    ∀ (fuel : Nat) (word : List Char) (s : FlowState), word ≠ [] →
      (∀ c ∈ word, jsWhitespace c = false) → word.length ≤ fuel →
      ∃ segs : List (List Char),
        committedLines (splitLongWordF K fuel word s) = committedLines s ++ segs ∧
        segs.foldr (fun a b => a ++ b) []
            ++ (splitLongWordF K fuel word s).currentLine = word ∧
        (splitLongWordF K fuel word s).currentLine ≠ [] ∧
        (∀ seg ∈ segs ++ [(splitLongWordF K fuel word s).currentLine],
          K.measure seg ≤ W + 1/10 ∨ seg.length = 1) ∧
        (W + 1/10 < K.measure word → 2 ≤ word.length → segs ≠ []) := by
  intro fuel
  induction fuel with
  | zero =>
    intro word s hne hws hlen
    exact absurd (List.length_eq_zero.mp (Nat.le_zero.mp hlen)) hne
  | succ fuel ih =>
    intro word s hne hws hlen
    cases word with
    | nil => exact absurd rfl hne
    | cons c cs =>
      have hstep0 : splitLongWordF K (fuel + 1) (c :: cs) s =
          (if chooseBest K.measure (getColumnWidth K s) (c :: cs)
              = ((c :: cs).length : ℤ) then
            { ensureColumnSpaceForNextLine K s with
              currentLine := (c :: cs),
              currentLineWidth := K.measure (c :: cs) }
          else
            splitLongWordF K fuel
              ((c :: cs).drop
                (chooseBest K.measure (getColumnWidth K s) (c :: cs)).toNat)
              (commitLine K
                ((c :: cs).take
                  (chooseBest K.measure (getColumnWidth K s) (c :: cs)).toNat)
                (ensureColumnSpaceForNextLine K s))) := rfl
      rw [getColumnWidth_const K W hcw] at hstep0
      rw [hstep0]
      have hb := chooseBest_bounds K.measure W (c :: cs) (by simp)
      by_cases heq : chooseBest K.measure W (c :: cs) = ((c :: cs).length : ℤ)
      · rw [if_pos heq]
        refine ⟨[], ?_, ?_, ?_, ?_, ?_⟩
        · rw [show committedLines { ensureColumnSpaceForNextLine K s with
              currentLine := (c :: cs),
              currentLineWidth := K.measure (c :: cs) }
              = committedLines (ensureColumnSpaceForNextLine K s) from rfl]
          rw [committedLines_ensure]
          simp
        · simp
        · simp
        · intro seg hseg
          rcases List.mem_singleton.mp (by simpa using hseg) with rfl
          by_cases h1 : (c :: cs).length = 1
          · exact Or.inr h1
          · left
            exact chooseBest_eq_length K.measure W (c :: cs) heq (by
              have : 1 ≤ (c :: cs).length := by simp
              omega)
        · intro hgt h2
          exact absurd (chooseBest_eq_length K.measure W (c :: cs) heq h2)
            (not_le.mpr hgt)
      · rw [if_neg heq]
        set best := chooseBest K.measure W (c :: cs) with hbest
        have hb1 : 1 ≤ best.toNat := by omega
        have hb2 : best.toNat < (c :: cs).length := by omega
        have hws' : ∀ x ∈ (c :: cs).drop best.toNat, jsWhitespace x = false :=
          fun x hx => hws x (List.drop_subset _ _ hx)
        have hlendrop : ((c :: cs).drop best.toNat).length
            = (c :: cs).length - best.toNat := List.length_drop _ _
        have hne' : (c :: cs).drop best.toNat ≠ [] := by
          intro hcontra
          have h0 : ((c :: cs).drop best.toNat).length = 0 := by rw [hcontra]; rfl
          rw [hlendrop] at h0
          omega
        have hlen' : ((c :: cs).drop best.toNat).length ≤ fuel := by
          rw [hlendrop]
          have hl : (c :: cs).length ≤ fuel + 1 := hlen
          omega
        obtain ⟨segs, hc1, hc2, hc3, hc4, _⟩ :=
          ih ((c :: cs).drop best.toNat)
            (commitLine K ((c :: cs).take best.toNat)
              (ensureColumnSpaceForNextLine K s)) hne' hws' hlen'
        have hlentake : ((c :: cs).take best.toNat).length = best.toNat := by
          rw [List.length_take]
          omega
        have hseg_ne : (c :: cs).take best.toNat ≠ [] := by
          intro hcontra
          have h0 : ((c :: cs).take best.toNat).length = 0 := by rw [hcontra]; rfl
          rw [hlentake] at h0
          omega
        have htrim : trimTrailing ((c :: cs).take best.toNat) = (c :: cs).take best.toNat :=
          trimTrailing_eq_self _ (fun x hx => hws x (List.take_subset _ _ hx))
        have hcommit : committedLines
            (commitLine K ((c :: cs).take best.toNat)
              (ensureColumnSpaceForNextLine K s))
            = committedLines s ++ [(c :: cs).take best.toNat] := by
          rw [committedLines_commitLine, committedLines_ensure, htrim,
            if_neg hseg_ne]
        refine ⟨(c :: cs).take best.toNat :: segs, ?_, ?_, hc3, ?_, ?_⟩
        · rw [hc1, hcommit]
          simp [List.append_assoc]
        · simp only [List.foldr_cons]
          rw [List.append_assoc, hc2, List.take_append_drop]
        · intro seg hseg
          rcases (by simpa using hseg :
              seg = (c :: cs).take best.toNat ∨ seg ∈ segs ∨
                seg = (splitLongWordF K fuel ((c :: cs).drop best.toNat)
                  (commitLine K ((c :: cs).take best.toNat)
                    (ensureColumnSpaceForNextLine K s))).currentLine)
            with hx | hx | hx
          · subst hx
            rcases chooseBest_fit K.measure W (c :: cs) with h1 | h1
            · right
              rw [← hbest] at h1
              rw [hlentake, h1]
              rfl
            · left
              rw [← hbest] at h1
              exact h1
          · exact hc4 seg (List.mem_append_left _ hx)
          · exact hc4 seg (by simp [hx])
        · intro _ _
          simp
end Layout

namespace Layout

/-- C3 counterexample: for the single-character word `"a"` measuring `10`
against column width `5`, `splitLongWord` emits exactly one segment (the
final line buffer, there are no committed lines), not at least two, and
that segment's measured width `10` exceeds the column width plus the
`0.1` tolerance. -/
theorem splitLongWord_counterexample :
    committedLines (splitLongWord ⟨fun l => (10 * l.length : ℤ), [5], 1, 1, 1000⟩
        ['a'] flowInit) = [] ∧
    (splitLongWord ⟨fun l => (10 * l.length : ℤ), [5], 1, 1, 1000⟩
        ['a'] flowInit).currentLine = ['a'] ∧
    ¬ (FlowCtx.measure ⟨fun l => (10 * l.length : ℤ), [5], 1, 1, 1000⟩ ['a']
        ≤ 5 + 1/10) := by
  refine ⟨?_, ?_, ?_⟩ <;> decide

/-- C3 (amended): with a configured column width `W`, for every non-empty
whitespace-free word, `splitLongWord` appends a sequence of committed
segments and leaves a final non-empty segment in the line buffer; the
concatenation of all emitted segments equals the original word; every
emitted segment either measures at most `W + 0.1` or is a single
force-taken character; and when the word measures more than `W + 0.1`
and has at least two characters, at least one segment is committed, so
at least two segments are emitted in total. -/
theorem splitLongWord_segments (K : FlowCtx) (W : ℚ) (word : List Char)
    (s : FlowState) (hcw : K.columnWidths = [W]) (hword : word ≠ [])
    (hws : ∀ c ∈ word, jsWhitespace c = false) :
    ∃ segs : List (List Char),
      committedLines (splitLongWord K word s) = committedLines s ++ segs ∧
      segs.foldr (fun a b => a ++ b) [] ++ (splitLongWord K word s).currentLine
        = word ∧
      (splitLongWord K word s).currentLine ≠ [] ∧
      (∀ seg ∈ segs ++ [(splitLongWord K word s).currentLine],
        K.measure seg ≤ W + 1/10 ∨ seg.length = 1) ∧
      (W + 1/10 < K.measure word → 2 ≤ word.length → segs ≠ []) :=
  splitLongWordF_segments K W hcw word.length word s hword hws le_rfl

theorem splitLongWord_segments_witness :
    ∃ segs : List (List Char),
      committedLines (splitLongWord ⟨fun l => (10 * l.length : ℤ), [25], 1, 1, 1000⟩
          ['a', 'b', 'c', 'd'] flowInit)
        = committedLines flowInit ++ segs ∧
      segs.foldr (fun a b => a ++ b) []
          ++ (splitLongWord ⟨fun l => (10 * l.length : ℤ), [25], 1, 1, 1000⟩
            ['a', 'b', 'c', 'd'] flowInit).currentLine = ['a', 'b', 'c', 'd'] ∧
      (splitLongWord ⟨fun l => (10 * l.length : ℤ), [25], 1, 1, 1000⟩
          ['a', 'b', 'c', 'd'] flowInit).currentLine ≠ [] ∧
      (∀ seg ∈ segs ++ [(splitLongWord ⟨fun l => (10 * l.length : ℤ), [25], 1, 1, 1000⟩
          ['a', 'b', 'c', 'd'] flowInit).currentLine],
        FlowCtx.measure ⟨fun l => (10 * l.length : ℤ), [25], 1, 1, 1000⟩ seg
          ≤ 25 + 1/10 ∨ seg.length = 1) ∧
      (25 + 1/10 < FlowCtx.measure ⟨fun l => (10 * l.length : ℤ), [25], 1, 1, 1000⟩
          ['a', 'b', 'c', 'd'] → 2 ≤ ['a', 'b', 'c', 'd'].length → segs ≠ []) :=
  splitLongWord_segments ⟨fun l => (10 * l.length : ℤ), [25], 1, 1, 1000⟩ 25
    ['a', 'b', 'c', 'd'] flowInit rfl (by decide) (by decide)

end Layout

namespace Layout

/-! ### Width resolution per comparison (C7) -/

/-- C7 counterexample: on `cfgStaleWidth` the source keeps using the
width fetched before a mid-token column/page transition, while resolving
the width at the moment of each comparison (as the claim states) yields a
different layout: the second page's first column holds two force-split
one-character lines instead of a single two-character line, so
`layoutText` and the per-comparison variant disagree. -/
theorem layoutText_stale_width_counterexample :
    ((layoutText true true (fun l => (l.length : ℚ)) cfgStaleWidth mStaleWidth).map
        (fun p => p.columns.map (fun c => c.lines.length)))
      = [[2, 2, 2], [2, 0, 0]] ∧
    ((layoutTextSpec true true (fun l => (l.length : ℚ)) cfgStaleWidth mStaleWidth).map
        (fun p => p.columns.map (fun c => c.lines.length)))
      = [[2, 2, 2], [1, 0, 0]] ∧
    ¬ (layoutText true true (fun l => (l.length : ℚ)) cfgStaleWidth mStaleWidth
        = layoutTextSpec true true (fun l => (l.length : ℚ)) cfgStaleWidth mStaleWidth) := by
  have h1 : ((layoutText true true (fun l => (l.length : ℚ)) cfgStaleWidth
      mStaleWidth).map (fun p => p.columns.map (fun c => c.lines.length)))
      = [[2, 2, 2], [2, 0, 0]] := by decide
  have h2 : ((layoutTextSpec true true (fun l => (l.length : ℚ)) cfgStaleWidth
      mStaleWidth).map (fun p => p.columns.map (fun c => c.lines.length)))
      = [[2, 2, 2], [1, 0, 0]] := by decide
  refine ⟨h1, h2, ?_⟩
  intro heq
  rw [heq] at h1
  rw [h1] at h2
  exact absurd h2 (by decide)

theorem getColumnWidth_all_eq (K : FlowCtx) (W : ℚ)
    (hcw : ∀ w ∈ K.columnWidths, w = W) (hne : K.columnWidths ≠ [])
    (s : FlowState) : getColumnWidth K s = W := by
  unfold getColumnWidth
  dsimp only
  split
  · exact hcw _ (List.get_mem _ _ _)
  · cases hlist : K.columnWidths with
    | nil => exact absurd hlist hne
    | cons a l =>
      have hmem : (a :: l).getLastD 0 ∈ a :: l := by
        rw [List.getLastD_eq_getLast?, List.getLast?_eq_getLast (a :: l) (by simp)]
        exact List.getLast_mem _
      exact hcw _ (hlist ▸ hmem)

theorem splitLongWordSpecF_eq (K : FlowCtx) (W : ℚ)
    (hcw : ∀ w ∈ K.columnWidths, w = W) (hne : K.columnWidths ≠ []) :
    ∀ (fuel : Nat) (w : List Char) (s : FlowState),
      splitLongWordF K fuel w s = splitLongWordSpecF K fuel w s := by
  intro fuel
  induction fuel with
  | zero => intro w s; cases w <;> rfl
  | succ fuel ih =>
    intro w s
    cases w with
    | nil => rfl
    | cons c cs =>
      have hL : splitLongWordF K (fuel + 1) (c :: cs) s =
          (if chooseBest K.measure (getColumnWidth K s) (c :: cs)
              = ((c :: cs).length : ℤ) then
            { ensureColumnSpaceForNextLine K s with
              currentLine := (c :: cs),
              currentLineWidth := K.measure (c :: cs) }
          else
            splitLongWordF K fuel
              ((c :: cs).drop
                (chooseBest K.measure (getColumnWidth K s) (c :: cs)).toNat)
              (commitLine K
                ((c :: cs).take
                  (chooseBest K.measure (getColumnWidth K s) (c :: cs)).toNat)
                (ensureColumnSpaceForNextLine K s))) := rfl
      have hR : splitLongWordSpecF K (fuel + 1) (c :: cs) s =
          (if chooseBest K.measure
              (getColumnWidth K (ensureColumnSpaceForNextLine K s)) (c :: cs)
              = ((c :: cs).length : ℤ) then
            { ensureColumnSpaceForNextLine K s with
              currentLine := (c :: cs),
              currentLineWidth := K.measure (c :: cs) }
          else
            splitLongWordSpecF K fuel
              ((c :: cs).drop
                (chooseBest K.measure
                  (getColumnWidth K (ensureColumnSpaceForNextLine K s))
                  (c :: cs)).toNat)
              (commitLine K
                ((c :: cs).take
                  (chooseBest K.measure
                    (getColumnWidth K (ensureColumnSpaceForNextLine K s))
                    (c :: cs)).toNat)
                (ensureColumnSpaceForNextLine K s))) := rfl
      rw [hL, hR]
      simp only [getColumnWidth_all_eq K W hcw hne]
      by_cases hcond : chooseBest K.measure W (c :: cs) = ((c :: cs).length : ℤ)
      · rw [if_pos hcond, if_pos hcond]
      · rw [if_neg hcond, if_neg hcond]
        exact ih _ _

theorem processTokenSpec_eq (K : FlowCtx) (W : ℚ)
    (hcw : ∀ w ∈ K.columnWidths, w = W) (hne : K.columnWidths ≠ [])
    (t : Token) (s : FlowState) :
    processToken K t s = processTokenSpec K t s := by
  unfold processToken processTokenSpec
  match t.type with
  | .newline => rfl
  | .space => rfl
  | .word =>
    dsimp only
    simp only [getColumnWidth_all_eq K W hcw hne]
    split
    · rfl
    · exact splitLongWordSpecF_eq K W hcw hne _ _ _

/-- C7 (amended): every width-fitting comparison uses the column width
resolved by `getColumnWidth` when the token began (for the word-token fit
check) or when the current split iteration began, *before* any mid-token
commit or `ensureColumnSpaceForNextLine` transition — so after a
mid-token column move the comparison still uses the previous column's
width.  When all configured column widths are equal, this per-token
resolution agrees with the claimed per-comparison resolution:
`layoutText` coincides with the per-comparison variant. -/
theorem layoutText_width_resolution (hw hc : Bool) (μ : List Char → ℚ)
    (cfg : LayoutConfig) (m : LayoutMetrics) (W : ℚ)
    (hcw : ∀ w ∈ m.columnWidthsPx, w = W) :
    layoutText hw hc μ cfg m = layoutTextSpec hw hc μ cfg m := by
  unfold layoutText layoutTextSpec
  split
  · rfl
  · dsimp only
    split
    · rfl
    · split
      · rfl
      · rename_i hwlen _
        set K : FlowCtx := ⟨μ, m.columnWidthsPx, max cfg.columns 1,
          m.lineHeightPx, m.columnHeightPx⟩ with hKdef
        have hne : K.columnWidths ≠ [] := by
          intro hcontra
          exact hwlen (by
            show m.columnWidthsPx.length = 0
            have : K.columnWidths = m.columnWidthsPx := rfl
            rw [← this, hcontra]
            rfl)
        have hfun : (fun (s : FlowState) (t : Token) => processToken K t s)
            = fun (s : FlowState) (t : Token) => processTokenSpec K t s :=
          funext fun s => funext fun t => processTokenSpec_eq K W hcw hne t s
        rw [hfun]

theorem layoutText_width_resolution_witness :
    layoutText true true (fun l => (l.length : ℚ)) ⟨['h', 'i'], 2, [], 12, 1⟩
        ⟨794, 1123, ⟨38, 38, 38, 38⟩, [50, 50], [0, 52], 500, 2, 16, 10, 1⟩
      = layoutTextSpec true true (fun l => (l.length : ℚ)) ⟨['h', 'i'], 2, [], 12, 1⟩
        ⟨794, 1123, ⟨38, 38, 38, 38⟩, [50, 50], [0, 52], 500, 2, 16, 10, 1⟩ :=
  layoutText_width_resolution true true (fun l => (l.length : ℚ))
    ⟨['h', 'i'], 2, [], 12, 1⟩
    ⟨794, 1123, ⟨38, 38, 38, 38⟩, [50, 50], [0, 52], 500, 2, 16, 10, 1⟩ 50
    (by decide)

end Layout
